import Mathlib

/- Verification of src/missing-translation.py (`find_missing_translations`).

   Modelling conventions:
   * Python strings are Lean `String` / `List Char`.
   * A parsed JSON translation dictionary is represented by its key list.
   * Python sets of strings are deduplicated lists; Python dicts are
     insertion-ordered association lists (`dictSet` mirrors `d[k] = v`,
     `bump` mirrors the `if k not in d: d[k] = []` / `d[k].append(v)` idiom).
   * The two regular expressions are modelled by character-level scanners
     with the semantics of `re.findall` on those concrete patterns
     (left-to-right, non-overlapping; on failure the engine advances one
     position).  Both patterns are backtracking-free on their character
     classes, so greedy munching is exact. -/

/-- Whitespace test used for the regex class of spaces and for `str.strip`. -/
def isWs (c : Char) : Bool := c.isWhitespace

/-- Python `str.strip`: drop whitespace from both ends. -/
def strip (l : List Char) : List Char :=
  ((l.dropWhile isWs).reverse.dropWhile isWs).reverse

/-- Python `'.' in key`. -/
def hasDot (s : String) : Bool := s.toList.contains '.'

/-- The single-quote character, ASCII 39. -/
def quoteChar : Char := Char.ofNat 39

/-- Characters of the negated class in the static-text regex that abort a
    match attempt ('<' instead terminates it): '>', the open brace, '['. -/
def isStopChar (c : Char) : Bool := c == '>' || c == '{' || c == '['

/-- One attempt of the static-text regex after an opening '>': consume
    characters until '<' (capturing them, returning the remainder after the
    '<'); fail if a stop character or the end of input comes first. -/
def matchStatic : List Char → Option (List Char × List Char)
  | [] => none
  | c :: rest =>
    if c == '<' then some ([], rest)
    else if isStopChar c then none
    else (matchStatic rest).map (fun p => (c :: p.1, p.2))

theorem matchStatic_length :
    ∀ (l tok r : List Char), matchStatic l = some (tok, r) → r.length < l.length := by
  intro l
  induction l with
  | nil => intro tok r h; simp [matchStatic] at h
  | cons c rest ih =>
    intro tok r h
    by_cases h1 : c == '<'
    · simp [matchStatic, h1] at h
      simp [← h.2]
    · by_cases h2 : isStopChar c
      · simp [matchStatic, h1, h2] at h
      · cases hm : matchStatic rest with
        | none => simp [matchStatic, h1, h2, hm] at h
        | some p =>
          obtain ⟨t, r'⟩ := p
          simp [matchStatic, h1, h2, hm] at h
          have := ih t r' hm
          simp [← h.2]
          omega

theorem matchStatic_decomp :
    ∀ (l tok r : List Char), matchStatic l = some (tok, r) →
      l = tok ++ '<' :: r ∧ ∀ c ∈ tok, isStopChar c = false := by
  intro l
  induction l with
  | nil => intro tok r h; simp [matchStatic] at h
  | cons c rest ih =>
    intro tok r h
    by_cases h1 : c == '<'
    · simp [matchStatic, h1] at h
      simp at h1
      obtain ⟨h3, h4⟩ := h
      subst h3; subst h4; subst h1
      simp
    · by_cases h2 : isStopChar c
      · simp [matchStatic, h1, h2] at h
      · cases hm : matchStatic rest with
        | none => simp [matchStatic, h1, h2, hm] at h
        | some p =>
          obtain ⟨t, r'⟩ := p
          simp [matchStatic, h1, h2, hm] at h
          obtain ⟨hd, hc⟩ := ih t r' hm
          obtain ⟨h3, h4⟩ := h
          subst h3; subst h4
          constructor
          · simp [hd]
          · intro d hdmem
            rcases List.mem_cons.mp hdmem with h | h
            · subst h; simpa using h2
            · exact hc d h

/-- Fueled left-to-right scan of the whole content with the static-text
    regex (the fuel only bounds the recursion; `fuel = l.length` always
    suffices because every step consumes at least one character). -/
def scanStaticAux : Nat → List Char → List (List Char)
  | 0, _ => []
  | _, [] => []
  | fuel + 1, c :: rest =>
    if c == '>' then
      match matchStatic rest with
      | some (tok, r) => tok :: scanStaticAux fuel r
      | none => scanStaticAux fuel rest
    else scanStaticAux fuel rest

/-- `re.findall` of the static-text pattern over the content: list of the
    captured groups, in order. -/
def scanStatic (l : List Char) : List (List Char) := scanStaticAux l.length l

/-- Python substring containment (`pat in text`) on character lists. -/
def containsSeq (pat : List Char) : List Char → Bool
  | [] => pat.isEmpty
  | c :: rest => pat.isPrefixOf (c :: rest) || containsSeq pat rest

/-- Modelled from the spec's words ("text strictly between a markup close
    and the next markup open"): the characters following a given position
    up to the first '<', if any '<' follows. -/
def spanTo (l : List Char) : Option (List Char) :=
  if l.contains '<' then some (l.takeWhile (fun c => c != '<')) else none

/-- Modelled from the spec's words, for comparison with `scanStatic`: for
    every '>', take the span to the next '<' and exclude it iff it contains
    the two-character open-brace delimiter or '['. -/
def specStaticSpans : List Char → List (List Char)
  | [] => []
  | c :: rest =>
    (if c == '>' then
      match spanTo rest with
      | some tok =>
        if containsSeq ['{', '{'] tok || tok.contains '[' then [] else [tok]
      | none => []
    else []) ++ specStaticSpans rest

/-- The amended declarative description: for every '>', take the span to the
    next '<' and exclude it iff it contains '>', a single open brace, or '['. -/
def amendedStaticSpans : List Char → List (List Char)
  | [] => []
  | c :: rest =>
    (if c == '>' then
      match spanTo rest with
      | some tok => if tok.any isStopChar then [] else [tok]
      | none => []
    else []) ++ amendedStaticSpans rest

theorem spanTo_cons_lt (rest : List Char) : spanTo ('<' :: rest) = some [] := by
  simp [spanTo, List.takeWhile]

theorem spanTo_cons_ne (c : Char) (rest : List Char) (h : (c == '<') = false) :
    spanTo (c :: rest) = (spanTo rest).map (fun tok => c :: tok) := by
  have hb : (c != '<') = true := by simp [bne, h]
  have h1 : ¬ ('<' = c) := by simp at h; exact fun he => h he.symm
  unfold spanTo
  by_cases hc : '<' ∈ rest
  · have hA : (c :: rest).contains '<' = true := by simp [hc]
    have hB : rest.contains '<' = true := by simp [hc]
    rw [hA, hB]
    simp only [if_true]
    rw [List.takeWhile_cons]
    simp [hb]
  · have hA : (c :: rest).contains '<' = false := by simp [hc, h1]
    have hB : rest.contains '<' = false := by simp [hc]
    rw [hA, hB]
    simp

theorem matchStatic_spanTo (l : List Char) :
    (match matchStatic l with
     | some p => [p.1]
     | none => ([] : List (List Char))) =
    (match spanTo l with
     | some tok => if tok.any isStopChar then [] else [tok]
     | none => []) := by
  induction l with
  | nil => simp [matchStatic, spanTo]
  | cons c rest ih =>
    by_cases h1 : c == '<'
    · simp at h1
      subst h1
      rw [spanTo_cons_lt]
      simp [matchStatic]
    · have h1' : (c == '<') = false := by simpa using h1
      rw [spanTo_cons_ne c rest h1']
      by_cases h2 : isStopChar c
      · have hL : matchStatic (c :: rest) = none := by
          simp [matchStatic, h1', h2]
        rw [hL]
        cases hs : spanTo rest with
        | none => simp
        | some tok => simp [h2]
      · have hL : matchStatic (c :: rest) =
            (matchStatic rest).map (fun p => (c :: p.1, p.2)) := by
          simp [matchStatic, h1', h2]
        rw [hL]
        cases hm : matchStatic rest with
        | none =>
          rw [hm] at ih
          simp only at ih
          cases hs : spanTo rest with
          | none => simp
          | some tok =>
            rw [hs] at ih
            simp only at ih
            have h5 : tok.any isStopChar = true := by
              by_contra hc
              simp [hc] at ih
            simp only [Option.map_some', Option.map_none']
            simp [List.any_cons, h5]
        | some p =>
          obtain ⟨t, r⟩ := p
          rw [hm] at ih
          simp only at ih
          cases hs : spanTo rest with
          | none => rw [hs] at ih; simp at ih
          | some tok =>
            rw [hs] at ih
            simp only at ih
            have h5 : tok.any isStopChar = false := by
              by_contra hc
              simp at hc
              simp [hc] at ih
            have ht : t = tok := by
              rw [h5] at ih
              simpa using ih
            simp only [Option.map_some']
            have h2' : isStopChar c = false := by simpa using h2
            simp [List.any_cons, h2', h5, ht]

theorem amendedStaticSpans_append (seg l : List Char)
    (h : ∀ c ∈ seg, (c == '>') = false) :
    amendedStaticSpans (seg ++ l) = amendedStaticSpans l := by
  induction seg with
  | nil => simp
  | cons d seg ih =>
    have hd : (d == '>') = false := h d (List.mem_cons_self d seg)
    have hrest : ∀ c ∈ seg, (c == '>') = false :=
      fun c hc => h c (List.mem_cons_of_mem d hc)
    simp only [List.cons_append, amendedStaticSpans, hd]
    simpa using ih hrest

theorem scanStaticAux_eq_amended :
    ∀ (fuel : Nat) (l : List Char), l.length ≤ fuel →
      scanStaticAux fuel l = amendedStaticSpans l := by
  intro fuel
  induction fuel with
  | zero =>
    intro l hl
    have : l = [] := by
      cases l with
      | nil => rfl
      | cons c rest => simp at hl
    subst this
    rfl
  | succ fuel ih =>
    intro l hl
    cases l with
    | nil => rfl
    | cons c rest =>
      have hrest : rest.length ≤ fuel := by simp at hl; omega
      by_cases hgt : c == '>'
      · cases hm : matchStatic rest with
        | some p =>
          obtain ⟨tok, r⟩ := p
          have hr : r.length ≤ fuel := by
            have := matchStatic_length rest tok r hm
            omega
          have hstep : scanStaticAux (fuel + 1) (c :: rest) =
              tok :: scanStaticAux fuel r := by
            simp [scanStaticAux, hgt, hm]
          obtain ⟨hdec, hstop⟩ := matchStatic_decomp rest tok r hm
          have hspan := matchStatic_spanTo rest
          rw [hm] at hspan
          simp only at hspan
          have hpre : (match spanTo rest with
              | some tok => if tok.any isStopChar then [] else [tok]
              | none => ([] : List (List Char))) = [tok] := hspan.symm
          have hnogt : ∀ d ∈ tok ++ ['<'], (d == '>') = false := by
            intro d hd
            rcases List.mem_append.mp hd with h | h
            · have := hstop d h
              simp [isStopChar] at this
              simp [this.1]
            · simp at h
              subst h
              rfl
          have hamend : amendedStaticSpans rest = amendedStaticSpans r := by
            have : rest = (tok ++ ['<']) ++ r := by simp [hdec]
            rw [this]
            exact amendedStaticSpans_append (tok ++ ['<']) r hnogt
          rw [hstep, ih r hr]
          conv_rhs => rw [show (c :: rest) = ('>' :: rest) from by simp at hgt; rw [hgt]]
          simp only [amendedStaticSpans]
          rw [hpre, hamend]
          simp
        | none =>
          have hstep : scanStaticAux (fuel + 1) (c :: rest) =
              scanStaticAux fuel rest := by
            simp [scanStaticAux, hgt, hm]
          have hspan := matchStatic_spanTo rest
          rw [hm] at hspan
          simp only at hspan
          rw [hstep, ih rest hrest]
          conv_rhs => rw [show (c :: rest) = ('>' :: rest) from by simp at hgt; rw [hgt]]
          simp only [amendedStaticSpans]
          rw [← hspan]
          simp
      · have hstep : scanStaticAux (fuel + 1) (c :: rest) =
            scanStaticAux fuel rest := by
          simp [scanStaticAux, hgt]
        rw [hstep, ih rest hrest]
        simp only [amendedStaticSpans]
        have hgt' : (c == '>') = false := by simpa using hgt
        rw [hgt']
        simp

theorem scanStatic_eq_amendedStaticSpans (l : List Char) :
    scanStatic l = amendedStaticSpans l :=
  scanStaticAux_eq_amended l.length l (Nat.le_refl _)

/-- Expect a fixed character sequence at the head of the input, returning
    the remainder after it. -/
def expectChars (pat l : List Char) : Option (List Char) :=
  if pat.isPrefixOf l then some (l.drop pat.length) else none

/-- Munch the (greedy, backtracking-free) whitespace of a regex space class. -/
def skipWs (l : List Char) : List Char := l.dropWhile isWs

/-- One attempt of the transloco-pipe regex at the current position: open
    braces, optional spaces, a quote, a non-empty quoted key, a quote,
    spaces, the pipe bar, spaces, the literal word transloco, spaces and the
    closing braces.  Returns the captured key and the remainder. -/
def matchTransloco (l : List Char) : Option (List Char × List Char) :=
  (expectChars ['{', '{'] l).bind (fun r1 =>
  (expectChars [quoteChar] (skipWs r1)).bind (fun r3 =>
  (if (r3.takeWhile (fun c => c != quoteChar)).isEmpty then none
   else (expectChars [quoteChar] (r3.dropWhile (fun c => c != quoteChar))).bind (fun r5 =>
  (expectChars ['|'] (skipWs r5)).bind (fun r7 =>
  (expectChars ("transloco".toList) (skipWs r7)).bind (fun r9 =>
  (expectChars ['}', '}'] (skipWs r9)).map (fun r11 =>
    (r3.takeWhile (fun c => c != quoteChar), r11))))))))

theorem expectChars_some {pat l r : List Char} (h : expectChars pat l = some r) :
    r.length + pat.length = l.length := by
  unfold expectChars at h
  by_cases hp : pat.isPrefixOf l
  · rw [if_pos hp] at h
    have hpre : pat <+: l := by
      rwa [List.isPrefixOf_iff_prefix] at hp
    have hle : pat.length ≤ l.length := hpre.length_le
    have : r = l.drop pat.length := by simpa using h.symm
    subst this
    simp [List.length_drop]
    omega
  · rw [if_neg hp] at h
    simp at h

theorem skipWs_length (l : List Char) : (skipWs l).length ≤ l.length :=
  (List.dropWhile_suffix isWs).length_le

theorem dropWhile_ne_length (p : Char → Bool) (l : List Char) :
    (l.dropWhile p).length ≤ l.length :=
  (List.dropWhile_suffix p).length_le

theorem matchTransloco_length :
    ∀ (l tok r : List Char), matchTransloco l = some (tok, r) → r.length < l.length := by
  intro l tok r h
  unfold matchTransloco at h
  rw [Option.bind_eq_some] at h
  obtain ⟨r1, h1, h⟩ := h
  rw [Option.bind_eq_some] at h
  obtain ⟨r3, h3, h⟩ := h
  by_cases hk : (r3.takeWhile (fun c => c != quoteChar)).isEmpty
  · rw [if_pos hk] at h
    simp at h
  · rw [if_neg hk] at h
    rw [Option.bind_eq_some] at h
    obtain ⟨r5, h5, h⟩ := h
    rw [Option.bind_eq_some] at h
    obtain ⟨r7, h7, h⟩ := h
    rw [Option.bind_eq_some] at h
    obtain ⟨r9, h9, h⟩ := h
    rw [Option.map_eq_some'] at h
    obtain ⟨r11, h11, heq⟩ := h
    have e1 := expectChars_some h1
    have e3 := expectChars_some h3
    have e5 := expectChars_some h5
    have e7 := expectChars_some h7
    have e9 := expectChars_some h9
    have e11 := expectChars_some h11
    have s1 := skipWs_length r1
    have s5 := skipWs_length r5
    have s7 := skipWs_length r7
    have s9 := skipWs_length r9
    have d3 := dropWhile_ne_length (fun c => c != quoteChar) r3
    have hr : r11 = r := by
      have := congrArg Prod.snd heq
      simpa using this
    subst hr
    simp at e1 e3 e5 e7 e9 e11
    omega

/-- Fueled left-to-right scan with the transloco-pipe regex. -/
def scanTranslocoAux : Nat → List Char → List (List Char)
  | 0, _ => []
  | _, [] => []
  | fuel + 1, c :: rest =>
    match matchTransloco (c :: rest) with
    | some (key, r) => key :: scanTranslocoAux fuel r
    | none => scanTranslocoAux fuel rest

/-- `re.findall` of the transloco-pipe pattern: the captured keys, in order. -/
def scanTransloco (l : List Char) : List (List Char) := scanTranslocoAux l.length l

/-- The fuel in `scanTranslocoAux` is irrelevant once it is at least the
    length of the input, so `scanTransloco` is a total model of the scan. -/
theorem scanTranslocoAux_congr :
    ∀ (n m : Nat) (l : List Char), l.length ≤ n → n ≤ m →
      scanTranslocoAux n l = scanTranslocoAux m l := by
  intro n
  induction n with
  | zero =>
    intro m l hl _
    have : l = [] := by
      cases l with
      | nil => rfl
      | cons c rest => simp at hl
    subst this
    cases m <;> rfl
  | succ n ih =>
    intro m l hl hnm
    cases l with
    | nil => cases m <;> rfl
    | cons c rest =>
      obtain ⟨m', rfl⟩ : ∃ m', m = m' + 1 := by
        cases m with
        | zero => omega
        | succ m' => exact ⟨m', rfl⟩
      have hrest : rest.length ≤ n := by simp at hl; omega
      have hnm' : n ≤ m' := by omega
      cases hm : matchTransloco (c :: rest) with
      | some p =>
        obtain ⟨key, r⟩ := p
        have hr : r.length ≤ n := by
          have := matchTransloco_length (c :: rest) key r hm
          simp at this
          omega
        simp only [scanTranslocoAux, hm]
        rw [ih m' r hr hnm']
      | none =>
        simp only [scanTranslocoAux, hm]
        exact ih m' rest hrest hnm'

/-- Result of `open` plus `json.load` on one translation file: the key list
    of the parsed object, or one of the two caught exceptions. -/
inductive JsonResult where
  | ok : List String → JsonResult
  | notFound : JsonResult
  | badJson : JsonResult
deriving DecidableEq

/-- One file yielded by the `os.walk` traversal: its directory, its base
    name, and its text content (`none` models a `UnicodeDecodeError`). -/
structure WalkEntry where
  root : String
  fname : String
  content : Option String
deriving DecidableEq

/-- The inputs of `find_missing_translations`: the walked template tree,
    the list of translation file paths, the reference (en) file path, and
    the loading behaviour of every path. -/
structure Config where
  rootDir : List WalkEntry
  translationFiles : List String
  enFile : String
  loadJson : String → JsonResult

/-- The six-value result tuple of `find_missing_translations`, in order. -/
structure Report where
  missingKeysEn : List (String × List String)
  missingTranslationsHtml : List (String × List String)
  missingTranslocoKeys : List (String × List String)
  totalMissingStatic : Nat
  totalMissingTransloco : Nat
  totalMissingKeysEn : Nat
deriving DecidableEq

/-- Lines 56-59: filter dotted keys out of both sets, subtract. -/
def diffMissing (enKeys keys : List String) : List String :=
  let enKeysFiltered := enKeys.filter (fun k => !(hasDot k))
  let keysFiltered := keys.filter (fun k => !(hasDot k))
  enKeysFiltered.filter (fun k => !(keysFiltered.contains k))

/-- Python dict assignment `d[k] = v` on an insertion-ordered association
    list: overwrite if present, append otherwise. -/
def dictSet (m : List (String × List String)) (k : String) (v : List String) :
    List (String × List String) :=
  if m.any (fun p => p.1 == k) then
    m.map (fun p => if p.1 == k then (p.1, v) else p)
  else m ++ [(k, v)]

/-- Python `d.setdefault(k, []).append(fp)` as written on lines 110-112 and
    128-130: initialise the bucket if absent, then append the origin file. -/
def bump (m : List (String × List String)) (key fp : String) :
    List (String × List String) :=
  if m.any (fun p => p.1 == key) then
    m.map (fun p => if p.1 == key then (p.1, p.2 ++ [fp]) else p)
  else m ++ [(key, [fp])]

/-- Reading a bucket of the association list (empty if absent). -/
def lookupBucket (m : List (String × List String)) (key : String) : List String :=
  match m.find? (fun p => p.1 == key) with
  | some p => p.2
  | none => []

/-- Lines 42-62: the first loop, producing `missing_keys_en` and
    `total_missing_keys_en`. -/
def missingKeysPart (cfg : Config) (enKeys : List String) :
    List (String × List String) × Nat :=
  cfg.translationFiles.foldl (fun acc file =>
    if file = cfg.enFile then acc
    else
      match cfg.loadJson file with
      | JsonResult.notFound => acc
      | JsonResult.badJson => acc
      | JsonResult.ok keyList =>
        let missing := diffMissing enKeys keyList.dedup
        if missing.isEmpty then acc
        else (dictSet acc.1 file missing, acc.2 + missing.length))
    ([], 0)

/-- Lines 67-77: `all_translations`, the key sets of every successfully
    loaded locale, the reference first. -/
def allTranslationsPart (cfg : Config) (enKeys : List String) :
    List (String × List String) :=
  (cfg.enFile, enKeys) :: cfg.translationFiles.filterMap (fun file =>
    if file = cfg.enFile then none
    else
      match cfg.loadJson file with
      | JsonResult.ok keyList => some (file, keyList.dedup)
      | JsonResult.notFound => none
      | JsonResult.badJson => none)

/-- Lines 103-107 and 121-125: the token is in the key set of some loaded
    locale. -/
def isTranslated (allT : List (String × List String)) (key : String) : Bool :=
  allT.any (fun p => p.2.contains key)

/-- Lines 94-95: extraction, strip, discard empties, per-file set. -/
def staticTokens (content : String) : List String :=
  (((scanStatic content.toList).map (fun t => String.mk (strip t))).filter
    (fun t => t != "")).dedup

/-- Lines 98-99: transloco keys, per-file set. -/
def translocoTokens (content : String) : List String :=
  ((scanTransloco content.toList).map (fun t => String.mk t)).dedup

/-- Lines 102-113: classify the static tokens of one file. -/
def checkStaticTokens (allT : List (String × List String)) (filepath : String)
    (tokens : List String) (acc : List (String × List String) × Nat) :
    List (String × List String) × Nat :=
  tokens.foldl (fun acc key =>
    if isTranslated allT key then acc
    else (bump acc.1 key filepath, acc.2 + 1)) acc

/-- Lines 116-131: classify the transloco tokens of one file, skipping
    dotted keys before the membership test. -/
def checkTranslocoTokens (allT : List (String × List String)) (filepath : String)
    (tokens : List String) (acc : List (String × List String) × Nat) :
    List (String × List String) × Nat :=
  tokens.foldl (fun acc key =>
    if hasDot key then acc
    else if isTranslated allT key then acc
    else (bump acc.1 key filepath, acc.2 + 1)) acc

/-- The mutable state of the template walk: the two buckets dictionaries
    and the two counters. -/
structure ScanState where
  missingHtml : List (String × List String)
  missingTransloco : List (String × List String)
  totalStatic : Nat
  totalTransloco : Nat
deriving DecidableEq

/-- Line 84: eligibility of one walked file. -/
def isEligibleTemplate (fname : String) : Bool :=
  List.isSuffixOf (".html".toList) fname.toList && fname != "index.html"

/-- Lines 82-131: the body of the walk for one file. -/
def processTemplate (allT : List (String × List String)) (st : ScanState)
    (entry : WalkEntry) : ScanState :=
  if isEligibleTemplate entry.fname then
    match entry.content with
    | none => st
    | some content =>
      let filepath := entry.root ++ "/" ++ entry.fname
      let resStatic :=
        checkStaticTokens allT filepath (staticTokens content)
          (st.missingHtml, st.totalStatic)
      let resTransloco :=
        checkTranslocoTokens allT filepath (translocoTokens content)
          (st.missingTransloco, st.totalTransloco)
      ⟨resStatic.1, resTransloco.1, resStatic.2, resTransloco.2⟩
  else st

/-- The whole of `find_missing_translations`. -/
def findMissingTranslations (cfg : Config) : Report :=
  match cfg.loadJson cfg.enFile with
  | JsonResult.notFound => ⟨[], [], [], 0, 0, 0⟩
  | JsonResult.badJson => ⟨[], [], [], 0, 0, 0⟩
  | JsonResult.ok enKeyList =>
    let enKeys := enKeyList.dedup
    let p1 := missingKeysPart cfg enKeys
    let allT := allTranslationsPart cfg enKeys
    let st := cfg.rootDir.foldl (processTemplate allT) ⟨[], [], 0, 0⟩
    ⟨p1.1, st.missingHtml, st.missingTransloco, st.totalStatic,
      st.totalTransloco, p1.2⟩

/-- Keys of an association list. -/
def keysOf (m : List (String × List String)) : List String := m.map (fun p => p.1)

/-- Total number of origin-file entries stored across all buckets. -/
def massOf (m : List (String × List String)) : Nat :=
  (m.map (fun p => p.2.length)).sum

theorem lookupBucket_bump_self (m : List (String × List String)) (k fp : String) :
    lookupBucket (bump m k fp) k = lookupBucket m k ++ [fp] := by
  unfold bump lookupBucket
  by_cases ha : m.any (fun p => p.1 == k)
  · rw [if_pos ha]
    rw [List.find?_map]
    have hcomp : ((fun p : String × List String => p.1 == k) ∘
        (fun p : String × List String => if p.1 == k then (p.1, p.2 ++ [fp]) else p)) =
        (fun p : String × List String => p.1 == k) := by
      funext p
      by_cases hp : p.1 = k <;> simp [hp]
    rw [hcomp]
    cases hf : m.find? (fun p => p.1 == k) with
    | none =>
      exfalso
      rw [List.find?_eq_none] at hf
      rw [List.any_eq_true] at ha
      obtain ⟨x, hx, hpx⟩ := ha
      exact hf x hx hpx
    | some p =>
      have hpk := List.find?_some hf
      simp at hpk
      simp [hpk]
  · rw [if_neg ha]
    have hf : m.find? (fun p => p.1 == k) = none := by
      rw [List.find?_eq_none]
      intro x hx hpx
      exact ha (List.any_eq_true.mpr ⟨x, hx, hpx⟩)
    rw [List.find?_append, hf]
    simp [List.find?]

theorem lookupBucket_bump_ne (m : List (String × List String)) (key fp k : String)
    (h : key ≠ k) :
    lookupBucket (bump m key fp) k = lookupBucket m k := by
  unfold bump lookupBucket
  by_cases ha : m.any (fun p => p.1 == key)
  · rw [if_pos ha]
    rw [List.find?_map]
    have hcomp : ((fun p : String × List String => p.1 == k) ∘
        (fun p : String × List String => if p.1 == key then (p.1, p.2 ++ [fp]) else p)) =
        (fun p : String × List String => p.1 == k) := by
      funext p
      by_cases hp : p.1 = key <;> simp [hp]
    rw [hcomp]
    cases hf : m.find? (fun p => p.1 == k) with
    | none => simp
    | some p =>
      have hpk := List.find?_some hf
      simp at hpk
      have hpkey : ¬ (p.1 = key) := by
        rw [hpk]
        exact fun he => h he.symm
      simp [hpkey]
  · rw [if_neg ha]
    rw [List.find?_append]
    have hke : (key == k) = false := by simp [h]
    cases hf : m.find? (fun p => p.1 == k) with
    | none => simp [List.find?, hke]
    | some p => simp

theorem keysOf_bump_apart (m : List (String × List String)) (k fp : String)
    (ha : m.any (fun p => p.1 == k) = true) :
    keysOf (bump m k fp) = keysOf m := by
  unfold bump keysOf
  rw [if_pos ha]
  rw [List.map_map]
  congr 1
  funext p
  by_cases hp : p.1 = k <;> simp [hp]

theorem keysOf_bump_new (m : List (String × List String)) (k fp : String)
    (ha : ¬ (m.any (fun p => p.1 == k) = true)) :
    keysOf (bump m k fp) = keysOf m ++ [k] := by
  unfold bump keysOf
  rw [if_neg ha]
  simp

theorem bump_nodup (m : List (String × List String)) (k fp : String)
    (h : (keysOf m).Nodup) : (keysOf (bump m k fp)).Nodup := by
  by_cases ha : m.any (fun p => p.1 == k)
  · rw [keysOf_bump_apart m k fp ha]
    exact h
  · rw [keysOf_bump_new m k fp ha]
    rw [List.nodup_append]
    refine ⟨h, List.nodup_singleton k, ?_⟩
    intro x hx
    simp only [List.mem_singleton]
    intro he
    subst he
    apply ha
    rw [List.any_eq_true]
    unfold keysOf at hx
    rw [List.mem_map] at hx
    obtain ⟨p, hp, hpe⟩ := hx
    exact ⟨p, hp, by simp [hpe]⟩

theorem massOf_update (m : List (String × List String)) (k fp : String)
    (hmem : ∃ p ∈ m, (p.1 == k) = true) (h : (keysOf m).Nodup) :
    massOf (m.map (fun p => if p.1 == k then (p.1, p.2 ++ [fp]) else p)) =
      massOf m + 1 := by
  induction m with
  | nil => simp at hmem
  | cons e m ih =>
    unfold keysOf at h
    rw [List.map_cons, List.nodup_cons] at h
    by_cases he : e.1 = k
    · have hknotin : ∀ p ∈ m, ¬ (p.1 = k) := by
        intro p hp hc
        apply h.1
        rw [List.mem_map]
        exact ⟨p, hp, by rw [hc, he]⟩
      have hmap : m.map (fun p => if p.1 == k then (p.1, p.2 ++ [fp]) else p) = m := by
        have : ∀ p ∈ m, (fun p : String × List String =>
            if p.1 == k then (p.1, p.2 ++ [fp]) else p) p = id p := by
          intro p hp
          simp [hknotin p hp]
        rw [List.map_congr_left this, List.map_id]
      unfold massOf
      simp only [List.map_cons, List.sum_cons, hmap]
      simp [he]
      omega
    · obtain ⟨x, hx, hpx⟩ := hmem
      simp at hpx
      have hxm : x ∈ m := by
        rcases List.mem_cons.mp hx with h1 | h1
        · exfalso
          subst h1
          exact he hpx
        · exact h1
      have ihr := ih ⟨x, hxm, by simp [hpx]⟩ h.2
      unfold massOf at ihr ⊢
      simp only [List.map_cons, List.sum_cons]
      rw [ihr]
      simp [he]
      omega

theorem massOf_bump (m : List (String × List String)) (k fp : String)
    (h : (keysOf m).Nodup) : massOf (bump m k fp) = massOf m + 1 := by
  unfold bump
  by_cases ha : m.any (fun p => p.1 == k)
  · rw [if_pos ha]
    rw [List.any_eq_true] at ha
    exact massOf_update m k fp ha h
  · rw [if_neg ha]
    unfold massOf
    rw [List.map_append]
    simp

theorem checkStaticTokens_bucket_preserve (allT : List (String × List String))
    (fp t : String) :
    ∀ (toks : List String) (acc : List (String × List String) × Nat),
      (isTranslated allT t = true ∨ t ∉ toks) →
      lookupBucket (checkStaticTokens allT fp toks acc).1 t =
        lookupBucket acc.1 t := by
  intro toks
  induction toks with
  | nil => intro acc h; rfl
  | cons key toks ih =>
    intro acc h
    unfold checkStaticTokens at ih ⊢
    rw [List.foldl_cons]
    by_cases hk : isTranslated allT key
    · rw [if_pos hk]
      apply ih
      rcases h with h | h
      · exact Or.inl h
      · exact Or.inr (fun hmem => h (List.mem_cons_of_mem key hmem))
    · rw [if_neg hk]
      have hne : key ≠ t := by
        rcases h with h | h
        · intro he; rw [he] at hk; exact hk h
        · intro he; exact h (he ▸ List.mem_cons_self key toks)
      have step : lookupBucket (bump acc.1 key fp) t = lookupBucket acc.1 t :=
        lookupBucket_bump_ne acc.1 key fp t hne
      rw [ih (bump acc.1 key fp, acc.2 + 1)
        (by
          rcases h with h | h
          · exact Or.inl h
          · exact Or.inr (fun hmem => h (List.mem_cons_of_mem key hmem)))]
      exact step

theorem checkStaticTokens_bucket_append (allT : List (String × List String))
    (fp t : String) (ht : isTranslated allT t = false) :
    ∀ (toks : List String) (acc : List (String × List String) × Nat),
      toks.Nodup → t ∈ toks →
      lookupBucket (checkStaticTokens allT fp toks acc).1 t =
        lookupBucket acc.1 t ++ [fp] := by
  intro toks
  induction toks with
  | nil => intro acc _ hmem; simp at hmem
  | cons key toks ih =>
    intro acc hn hmem
    rw [List.nodup_cons] at hn
    unfold checkStaticTokens at ih ⊢
    rw [List.foldl_cons]
    by_cases hk : key = t
    · subst hk
      rw [if_neg (by rw [ht]; simp)]
      have hnot : key ∉ toks := hn.1
      have hpres := checkStaticTokens_bucket_preserve allT fp key toks
        (bump acc.1 key fp, acc.2 + 1) (Or.inr hnot)
      unfold checkStaticTokens at hpres
      rw [hpres]
      exact lookupBucket_bump_self acc.1 key fp
    · have hmem' : t ∈ toks := by
        rcases List.mem_cons.mp hmem with h1 | h1
        · exact absurd h1.symm hk
        · exact h1
      by_cases hkt : isTranslated allT key
      · rw [if_pos hkt]
        exact ih acc hn.2 hmem'
      · rw [if_neg hkt]
        rw [ih (bump acc.1 key fp, acc.2 + 1) hn.2 hmem']
        rw [lookupBucket_bump_ne acc.1 key fp t hk]

theorem checkTranslocoTokens_bucket_preserve (allT : List (String × List String))
    (fp t : String) :
    ∀ (toks : List String) (acc : List (String × List String) × Nat),
      (hasDot t = true ∨ isTranslated allT t = true ∨ t ∉ toks) →
      lookupBucket (checkTranslocoTokens allT fp toks acc).1 t =
        lookupBucket acc.1 t := by
  intro toks
  induction toks with
  | nil => intro acc h; rfl
  | cons key toks ih =>
    intro acc h
    have hnext : hasDot t = true ∨ isTranslated allT t = true ∨ t ∉ toks := by
      rcases h with h | h | h
      · exact Or.inl h
      · exact Or.inr (Or.inl h)
      · exact Or.inr (Or.inr (fun hmem => h (List.mem_cons_of_mem key hmem)))
    unfold checkTranslocoTokens at ih ⊢
    rw [List.foldl_cons]
    by_cases hd : hasDot key
    · rw [if_pos hd]
      exact ih acc hnext
    · rw [if_neg hd]
      by_cases hk : isTranslated allT key
      · rw [if_pos hk]
        exact ih acc hnext
      · rw [if_neg hk]
        have hne : key ≠ t := by
          rcases h with h | h | h
          · intro he; rw [he] at hd; exact hd h
          · intro he; rw [he] at hk; exact hk h
          · intro he; exact h (he ▸ List.mem_cons_self key toks)
        rw [ih (bump acc.1 key fp, acc.2 + 1) hnext]
        exact lookupBucket_bump_ne acc.1 key fp t hne

theorem checkTranslocoTokens_bucket_append (allT : List (String × List String))
    (fp t : String) (ht : isTranslated allT t = false) (hd : hasDot t = false) :
    ∀ (toks : List String) (acc : List (String × List String) × Nat),
      toks.Nodup → t ∈ toks →
      lookupBucket (checkTranslocoTokens allT fp toks acc).1 t =
        lookupBucket acc.1 t ++ [fp] := by
  intro toks
  induction toks with
  | nil => intro acc _ hmem; simp at hmem
  | cons key toks ih =>
    intro acc hn hmem
    rw [List.nodup_cons] at hn
    unfold checkTranslocoTokens at ih ⊢
    rw [List.foldl_cons]
    by_cases hk : key = t
    · subst hk
      rw [if_neg (by rw [hd]; simp)]
      rw [if_neg (by rw [ht]; simp)]
      have hpres := checkTranslocoTokens_bucket_preserve allT fp key toks
        (bump acc.1 key fp, acc.2 + 1) (Or.inr (Or.inr hn.1))
      unfold checkTranslocoTokens at hpres
      rw [hpres]
      exact lookupBucket_bump_self acc.1 key fp
    · have hmem' : t ∈ toks := by
        rcases List.mem_cons.mp hmem with h1 | h1
        · exact absurd h1.symm hk
        · exact h1
      by_cases hkd : hasDot key
      · rw [if_pos hkd]
        exact ih acc hn.2 hmem'
      · rw [if_neg hkd]
        by_cases hkt : isTranslated allT key
        · rw [if_pos hkt]
          exact ih acc hn.2 hmem'
        · rw [if_neg hkt]
          rw [ih (bump acc.1 key fp, acc.2 + 1) hn.2 hmem']
          rw [lookupBucket_bump_ne acc.1 key fp t hk]

theorem checkStaticTokens_mass (allT : List (String × List String)) (fp : String) :
    ∀ (toks : List String) (acc : List (String × List String) × Nat),
      (keysOf acc.1).Nodup →
      (keysOf (checkStaticTokens allT fp toks acc).1).Nodup ∧
      (checkStaticTokens allT fp toks acc).2 + massOf acc.1 =
        acc.2 + massOf (checkStaticTokens allT fp toks acc).1 := by
  intro toks
  induction toks with
  | nil => intro acc h; exact ⟨h, rfl⟩
  | cons key toks ih =>
    intro acc h
    unfold checkStaticTokens at ih ⊢
    rw [List.foldl_cons]
    by_cases hk : isTranslated allT key
    · rw [if_pos hk]
      exact ih acc h
    · rw [if_neg hk]
      have hstep := ih (bump acc.1 key fp, acc.2 + 1) (bump_nodup acc.1 key fp h)
      refine ⟨hstep.1, ?_⟩
      have hmass := massOf_bump acc.1 key fp h
      have := hstep.2
      simp only at this ⊢
      omega

theorem checkTranslocoTokens_mass (allT : List (String × List String)) (fp : String) :
    ∀ (toks : List String) (acc : List (String × List String) × Nat),
      (keysOf acc.1).Nodup →
      (keysOf (checkTranslocoTokens allT fp toks acc).1).Nodup ∧
      (checkTranslocoTokens allT fp toks acc).2 + massOf acc.1 =
        acc.2 + massOf (checkTranslocoTokens allT fp toks acc).1 := by
  intro toks
  induction toks with
  | nil => intro acc h; exact ⟨h, rfl⟩
  | cons key toks ih =>
    intro acc h
    unfold checkTranslocoTokens at ih ⊢
    rw [List.foldl_cons]
    by_cases hd : hasDot key
    · rw [if_pos hd]
      exact ih acc h
    · rw [if_neg hd]
      by_cases hk : isTranslated allT key
      · rw [if_pos hk]
        exact ih acc h
      · rw [if_neg hk]
        have hstep := ih (bump acc.1 key fp, acc.2 + 1) (bump_nodup acc.1 key fp h)
        refine ⟨hstep.1, ?_⟩
        have hmass := massOf_bump acc.1 key fp h
        have := hstep.2
        simp only at this ⊢
        omega

/-- The origin files (in walk order) of the eligible, decodable template
    files whose static token set contains `t`. -/
def staticOccurrences (entries : List WalkEntry) (t : String) : List String :=
  entries.filterMap (fun e =>
    if isEligibleTemplate e.fname then
      match e.content with
      | some content =>
        if t ∈ staticTokens content then some (e.root ++ "/" ++ e.fname) else none
      | none => none
    else none)

/-- The origin files (in walk order) of the eligible, decodable template
    files whose transloco token set contains `t`. -/
def translocoOccurrences (entries : List WalkEntry) (t : String) : List String :=
  entries.filterMap (fun e =>
    if isEligibleTemplate e.fname then
      match e.content with
      | some content =>
        if t ∈ translocoTokens content then some (e.root ++ "/" ++ e.fname) else none
      | none => none
    else none)

theorem foldTemplates_static_bucket (allT : List (String × List String)) (t : String)
    (ht : isTranslated allT t = false) :
    ∀ (entries : List WalkEntry) (st : ScanState),
      lookupBucket (entries.foldl (processTemplate allT) st).missingHtml t =
        lookupBucket st.missingHtml t ++ staticOccurrences entries t := by
  intro entries
  induction entries with
  | nil => intro st; simp [staticOccurrences]
  | cons e entries ih =>
    intro st
    rw [List.foldl_cons]
    by_cases hel : isEligibleTemplate e.fname
    · cases hc : e.content with
      | none =>
        have hstep : processTemplate allT st e = st := by
          unfold processTemplate
          rw [if_pos hel, hc]
        have hocc : staticOccurrences (e :: entries) t = staticOccurrences entries t := by
          simp [staticOccurrences, List.filterMap_cons, hel, hc]
        rw [hstep, hocc, ih st]
      | some content =>
        have hstep : (processTemplate allT st e).missingHtml =
            (checkStaticTokens allT (e.root ++ "/" ++ e.fname)
              (staticTokens content) (st.missingHtml, st.totalStatic)).1 := by
          unfold processTemplate
          rw [if_pos hel, hc]
        by_cases hmem : t ∈ staticTokens content
        · have hocc : staticOccurrences (e :: entries) t =
              (e.root ++ "/" ++ e.fname) :: staticOccurrences entries t := by
            simp [staticOccurrences, List.filterMap_cons, hel, hc, hmem]
          rw [ih (processTemplate allT st e), hstep, hocc]
          rw [checkStaticTokens_bucket_append allT (e.root ++ "/" ++ e.fname) t ht
            (staticTokens content) (st.missingHtml, st.totalStatic)
            (List.nodup_dedup _) hmem]
          simp
        · have hocc : staticOccurrences (e :: entries) t = staticOccurrences entries t := by
            simp [staticOccurrences, List.filterMap_cons, hel, hc, hmem]
          rw [ih (processTemplate allT st e), hstep, hocc]
          rw [checkStaticTokens_bucket_preserve allT (e.root ++ "/" ++ e.fname) t
            (staticTokens content) (st.missingHtml, st.totalStatic) (Or.inr hmem)]
    · have hstep : processTemplate allT st e = st := by
        unfold processTemplate
        rw [if_neg hel]
      have hocc : staticOccurrences (e :: entries) t = staticOccurrences entries t := by
        simp [staticOccurrences, List.filterMap_cons, hel]
      rw [hstep, hocc, ih st]

theorem foldTemplates_transloco_bucket (allT : List (String × List String)) (t : String)
    (ht : isTranslated allT t = false) (hd : hasDot t = false) :
    ∀ (entries : List WalkEntry) (st : ScanState),
      lookupBucket (entries.foldl (processTemplate allT) st).missingTransloco t =
        lookupBucket st.missingTransloco t ++ translocoOccurrences entries t := by
  intro entries
  induction entries with
  | nil => intro st; simp [translocoOccurrences]
  | cons e entries ih =>
    intro st
    rw [List.foldl_cons]
    by_cases hel : isEligibleTemplate e.fname
    · cases hc : e.content with
      | none =>
        have hstep : processTemplate allT st e = st := by
          unfold processTemplate
          rw [if_pos hel, hc]
        have hocc : translocoOccurrences (e :: entries) t =
            translocoOccurrences entries t := by
          simp [translocoOccurrences, List.filterMap_cons, hel, hc]
        rw [hstep, hocc, ih st]
      | some content =>
        have hstep : (processTemplate allT st e).missingTransloco =
            (checkTranslocoTokens allT (e.root ++ "/" ++ e.fname)
              (translocoTokens content) (st.missingTransloco, st.totalTransloco)).1 := by
          unfold processTemplate
          rw [if_pos hel, hc]
        by_cases hmem : t ∈ translocoTokens content
        · have hocc : translocoOccurrences (e :: entries) t =
              (e.root ++ "/" ++ e.fname) :: translocoOccurrences entries t := by
            simp [translocoOccurrences, List.filterMap_cons, hel, hc, hmem]
          rw [ih (processTemplate allT st e), hstep, hocc]
          rw [checkTranslocoTokens_bucket_append allT (e.root ++ "/" ++ e.fname) t ht hd
            (translocoTokens content) (st.missingTransloco, st.totalTransloco)
            (List.nodup_dedup _) hmem]
          simp
        · have hocc : translocoOccurrences (e :: entries) t =
              translocoOccurrences entries t := by
            simp [translocoOccurrences, List.filterMap_cons, hel, hc, hmem]
          rw [ih (processTemplate allT st e), hstep, hocc]
          rw [checkTranslocoTokens_bucket_preserve allT (e.root ++ "/" ++ e.fname) t
            (translocoTokens content) (st.missingTransloco, st.totalTransloco)
            (Or.inr (Or.inr hmem))]
    · have hstep : processTemplate allT st e = st := by
        unfold processTemplate
        rw [if_neg hel]
      have hocc : translocoOccurrences (e :: entries) t =
          translocoOccurrences entries t := by
        simp [translocoOccurrences, List.filterMap_cons, hel]
      rw [hstep, hocc, ih st]

theorem foldTemplates_transloco_dotted (allT : List (String × List String)) (t : String)
    (hd : hasDot t = true) :
    ∀ (entries : List WalkEntry) (st : ScanState),
      lookupBucket (entries.foldl (processTemplate allT) st).missingTransloco t =
        lookupBucket st.missingTransloco t := by
  intro entries
  induction entries with
  | nil => intro st; rfl
  | cons e entries ih =>
    intro st
    rw [List.foldl_cons, ih (processTemplate allT st e)]
    by_cases hel : isEligibleTemplate e.fname
    · cases hc : e.content with
      | none =>
        unfold processTemplate
        rw [if_pos hel, hc]
      | some content =>
        have hstep : (processTemplate allT st e).missingTransloco =
            (checkTranslocoTokens allT (e.root ++ "/" ++ e.fname)
              (translocoTokens content) (st.missingTransloco, st.totalTransloco)).1 := by
          unfold processTemplate
          rw [if_pos hel, hc]
        rw [hstep]
        exact checkTranslocoTokens_bucket_preserve allT (e.root ++ "/" ++ e.fname) t
          (translocoTokens content) (st.missingTransloco, st.totalTransloco) (Or.inl hd)
    · unfold processTemplate
      rw [if_neg hel]

theorem foldTemplates_translated (allT : List (String × List String)) (t : String)
    (ht : isTranslated allT t = true) :
    ∀ (entries : List WalkEntry) (st : ScanState),
      lookupBucket (entries.foldl (processTemplate allT) st).missingHtml t =
        lookupBucket st.missingHtml t ∧
      lookupBucket (entries.foldl (processTemplate allT) st).missingTransloco t =
        lookupBucket st.missingTransloco t := by
  intro entries
  induction entries with
  | nil => intro st; exact ⟨rfl, rfl⟩
  | cons e entries ih =>
    intro st
    rw [List.foldl_cons]
    obtain ⟨ih1, ih2⟩ := ih (processTemplate allT st e)
    by_cases hel : isEligibleTemplate e.fname
    · cases hc : e.content with
      | none =>
        have hstep : processTemplate allT st e = st := by
          unfold processTemplate
          rw [if_pos hel, hc]
        rw [ih1, ih2, hstep]
        exact ⟨rfl, rfl⟩
      | some content =>
        have hstep1 : (processTemplate allT st e).missingHtml =
            (checkStaticTokens allT (e.root ++ "/" ++ e.fname)
              (staticTokens content) (st.missingHtml, st.totalStatic)).1 := by
          unfold processTemplate
          rw [if_pos hel, hc]
        have hstep2 : (processTemplate allT st e).missingTransloco =
            (checkTranslocoTokens allT (e.root ++ "/" ++ e.fname)
              (translocoTokens content) (st.missingTransloco, st.totalTransloco)).1 := by
          unfold processTemplate
          rw [if_pos hel, hc]
        constructor
        · rw [ih1, hstep1]
          exact checkStaticTokens_bucket_preserve allT (e.root ++ "/" ++ e.fname) t
            (staticTokens content) (st.missingHtml, st.totalStatic) (Or.inl ht)
        · rw [ih2, hstep2]
          exact checkTranslocoTokens_bucket_preserve allT (e.root ++ "/" ++ e.fname) t
            (translocoTokens content) (st.missingTransloco, st.totalTransloco)
            (Or.inr (Or.inl ht))
    · have hstep : processTemplate allT st e = st := by
        unfold processTemplate
        rw [if_neg hel]
      rw [ih1, ih2, hstep]
      exact ⟨rfl, rfl⟩

theorem foldTemplates_mass (allT : List (String × List String)) :
    ∀ (entries : List WalkEntry) (st : ScanState),
      (keysOf st.missingHtml).Nodup → (keysOf st.missingTransloco).Nodup →
      (keysOf (entries.foldl (processTemplate allT) st).missingHtml).Nodup ∧
      (keysOf (entries.foldl (processTemplate allT) st).missingTransloco).Nodup ∧
      (entries.foldl (processTemplate allT) st).totalStatic +
          massOf st.missingHtml =
        st.totalStatic +
          massOf (entries.foldl (processTemplate allT) st).missingHtml ∧
      (entries.foldl (processTemplate allT) st).totalTransloco +
          massOf st.missingTransloco =
        st.totalTransloco +
          massOf (entries.foldl (processTemplate allT) st).missingTransloco := by
  intro entries
  induction entries with
  | nil => intro st h1 h2; exact ⟨h1, h2, rfl, rfl⟩
  | cons e entries ih =>
    intro st h1 h2
    rw [List.foldl_cons]
    by_cases hel : isEligibleTemplate e.fname
    · cases hc : e.content with
      | none =>
        have hstep : processTemplate allT st e = st := by
          unfold processTemplate
          rw [if_pos hel, hc]
        rw [hstep]
        exact ih st h1 h2
      | some content =>
        have hstM : (processTemplate allT st e).missingHtml =
            (checkStaticTokens allT (e.root ++ "/" ++ e.fname)
              (staticTokens content) (st.missingHtml, st.totalStatic)).1 := by
          unfold processTemplate
          rw [if_pos hel, hc]
        have hstT : (processTemplate allT st e).missingTransloco =
            (checkTranslocoTokens allT (e.root ++ "/" ++ e.fname)
              (translocoTokens content) (st.missingTransloco, st.totalTransloco)).1 := by
          unfold processTemplate
          rw [if_pos hel, hc]
        have hstCS : (processTemplate allT st e).totalStatic =
            (checkStaticTokens allT (e.root ++ "/" ++ e.fname)
              (staticTokens content) (st.missingHtml, st.totalStatic)).2 := by
          unfold processTemplate
          rw [if_pos hel, hc]
        have hstCT : (processTemplate allT st e).totalTransloco =
            (checkTranslocoTokens allT (e.root ++ "/" ++ e.fname)
              (translocoTokens content) (st.missingTransloco, st.totalTransloco)).2 := by
          unfold processTemplate
          rw [if_pos hel, hc]
        obtain ⟨hs1, hs2⟩ := checkStaticTokens_mass allT (e.root ++ "/" ++ e.fname)
          (staticTokens content) (st.missingHtml, st.totalStatic) h1
        obtain ⟨ht1, ht2⟩ := checkTranslocoTokens_mass allT (e.root ++ "/" ++ e.fname)
          (translocoTokens content) (st.missingTransloco, st.totalTransloco) h2
        obtain ⟨k1, k2, k3, k4⟩ := ih (processTemplate allT st e)
          (by rw [hstM]; exact hs1) (by rw [hstT]; exact ht1)
        refine ⟨k1, k2, ?_, ?_⟩
        · rw [hstM, hstCS] at k3
          simp only at hs2 k3 ⊢
          omega
        · rw [hstT, hstCT] at k4
          simp only at ht2 k4 ⊢
          omega
    · have hstep : processTemplate allT st e = st := by
        unfold processTemplate
        rw [if_neg hel]
      rw [hstep]
      exact ih st h1 h2

theorem diffMissing_hasDot (enKeys keys : List String) :
    ∀ k ∈ diffMissing enKeys keys, hasDot k = false := by
  intro k hk
  unfold diffMissing at hk
  simp only [List.mem_filter] at hk
  have := hk.1.2
  simp at this
  simp [this]

theorem dictSet_mem (m : List (String × List String)) (k : String)
    (v : List String) (q : String × List String) (hq : q ∈ dictSet m k v) :
    q ∈ m ∨ q.2 = v := by
  unfold dictSet at hq
  by_cases ha : m.any (fun p => p.1 == k)
  · rw [if_pos ha] at hq
    rw [List.mem_map] at hq
    obtain ⟨p, hp, hpe⟩ := hq
    by_cases hpk : p.1 = k
    · right
      rw [← hpe]
      simp [hpk]
    · left
      rw [← hpe]
      simp [hpk]
      exact hp
  · rw [if_neg ha] at hq
    rcases List.mem_append.mp hq with h | h
    · exact Or.inl h
    · right
      simp at h
      rw [h]

theorem dictSet_no_new_key (m : List (String × List String)) (file : String)
    (v : List String) (f : String) (hne : file ≠ f)
    (h : ∀ ks, ((f, ks) : String × List String) ∉ m) :
    ∀ ks, ((f, ks) : String × List String) ∉ dictSet m file v := by
  intro ks hq
  unfold dictSet at hq
  by_cases ha : m.any (fun p => p.1 == file)
  · rw [if_pos ha] at hq
    rw [List.mem_map] at hq
    obtain ⟨p, hp, hpe⟩ := hq
    by_cases hpk : p.1 = file
    · have : p.1 = f := by
        have := congrArg Prod.fst hpe
        simpa [hpk] using this
      exact hne (hpk ▸ this)
    · simp [hpk] at hpe
      rw [hpe] at hp
      exact h ks hp
  · rw [if_neg ha] at hq
    rcases List.mem_append.mp hq with hh | hh
    · exact h ks hh
    · simp at hh
      exact hne hh.1.symm

/-- The step function of the first loop (lines 42-62). -/
def part1Step (cfg : Config) (enKeys : List String)
    (acc : List (String × List String) × Nat) (file : String) :
    List (String × List String) × Nat :=
  if file = cfg.enFile then acc
  else
    match cfg.loadJson file with
    | JsonResult.notFound => acc
    | JsonResult.badJson => acc
    | JsonResult.ok keyList =>
      let missing := diffMissing enKeys keyList.dedup
      if missing.isEmpty then acc
      else (dictSet acc.1 file missing, acc.2 + missing.length)

theorem missingKeysPart_eq_foldl (cfg : Config) (enKeys : List String) :
    missingKeysPart cfg enKeys =
      cfg.translationFiles.foldl (part1Step cfg enKeys) ([], 0) := rfl

theorem part1Step_en (cfg : Config) (enKeys : List String)
    (acc : List (String × List String) × Nat) (file : String)
    (h : file = cfg.enFile) : part1Step cfg enKeys acc file = acc := by
  unfold part1Step
  rw [if_pos h]

theorem part1Step_notFound (cfg : Config) (enKeys : List String)
    (acc : List (String × List String) × Nat) (file : String)
    (h1 : file ≠ cfg.enFile) (hl : cfg.loadJson file = JsonResult.notFound) :
    part1Step cfg enKeys acc file = acc := by
  unfold part1Step
  rw [if_neg h1, hl]

theorem part1Step_badJson (cfg : Config) (enKeys : List String)
    (acc : List (String × List String) × Nat) (file : String)
    (h1 : file ≠ cfg.enFile) (hl : cfg.loadJson file = JsonResult.badJson) :
    part1Step cfg enKeys acc file = acc := by
  unfold part1Step
  rw [if_neg h1, hl]

theorem part1Step_ok_empty (cfg : Config) (enKeys : List String)
    (acc : List (String × List String) × Nat) (file : String)
    (keyList : List String) (h1 : file ≠ cfg.enFile)
    (hl : cfg.loadJson file = JsonResult.ok keyList)
    (h2 : (diffMissing enKeys keyList.dedup).isEmpty) :
    part1Step cfg enKeys acc file = acc := by
  unfold part1Step
  rw [if_neg h1, hl]
  simp [h2]

theorem part1Step_ok_nonempty (cfg : Config) (enKeys : List String)
    (acc : List (String × List String) × Nat) (file : String)
    (keyList : List String) (h1 : file ≠ cfg.enFile)
    (hl : cfg.loadJson file = JsonResult.ok keyList)
    (h2 : ¬ ((diffMissing enKeys keyList.dedup).isEmpty = true)) :
    part1Step cfg enKeys acc file =
      (dictSet acc.1 file (diffMissing enKeys keyList.dedup),
        acc.2 + (diffMissing enKeys keyList.dedup).length) := by
  unfold part1Step
  rw [if_neg h1, hl]
  simp [h2]

theorem part1_nonempty (cfg : Config) (enKeys : List String) :
    ∀ (files : List String) (acc : List (String × List String) × Nat),
      (∀ p ∈ acc.1, p.2 ≠ []) →
      ∀ p ∈ (files.foldl (part1Step cfg enKeys) acc).1, p.2 ≠ [] := by
  intro files
  induction files with
  | nil => intro acc h; exact h
  | cons file files ih =>
    intro acc h
    rw [List.foldl_cons]
    apply ih
    by_cases h1 : file = cfg.enFile
    · rw [part1Step_en cfg enKeys acc file h1]; exact h
    · cases hl : cfg.loadJson file with
      | notFound => rw [part1Step_notFound cfg enKeys acc file h1 hl]; exact h
      | badJson => rw [part1Step_badJson cfg enKeys acc file h1 hl]; exact h
      | ok keyList =>
        by_cases h2 : (diffMissing enKeys keyList.dedup).isEmpty
        · rw [part1Step_ok_empty cfg enKeys acc file keyList h1 hl h2]; exact h
        · rw [part1Step_ok_nonempty cfg enKeys acc file keyList h1 hl h2]
          intro p hp
          rcases dictSet_mem acc.1 file (diffMissing enKeys keyList.dedup) p hp with
            hh | hh
          · exact h p hh
          · rw [hh]
            intro he
            rw [he] at h2
            simp at h2

theorem part1_no_dots (cfg : Config) (enKeys : List String) :
    ∀ (files : List String) (acc : List (String × List String) × Nat),
      (∀ p ∈ acc.1, ∀ s ∈ p.2, hasDot s = false) →
      ∀ p ∈ (files.foldl (part1Step cfg enKeys) acc).1, ∀ s ∈ p.2,
        hasDot s = false := by
  intro files
  induction files with
  | nil => intro acc h; exact h
  | cons file files ih =>
    intro acc h
    rw [List.foldl_cons]
    apply ih
    by_cases h1 : file = cfg.enFile
    · rw [part1Step_en cfg enKeys acc file h1]; exact h
    · cases hl : cfg.loadJson file with
      | notFound => rw [part1Step_notFound cfg enKeys acc file h1 hl]; exact h
      | badJson => rw [part1Step_badJson cfg enKeys acc file h1 hl]; exact h
      | ok keyList =>
        by_cases h2 : (diffMissing enKeys keyList.dedup).isEmpty
        · rw [part1Step_ok_empty cfg enKeys acc file keyList h1 hl h2]; exact h
        · rw [part1Step_ok_nonempty cfg enKeys acc file keyList h1 hl h2]
          intro p hp
          rcases dictSet_mem acc.1 file (diffMissing enKeys keyList.dedup) p hp with
            hh | hh
          · exact h p hh
          · rw [hh]
            exact diffMissing_hasDot enKeys keyList.dedup

theorem part1_no_failed_entry (cfg : Config) (enKeys : List String) (f : String)
    (hne : f ≠ cfg.enFile)
    (hload : cfg.loadJson f = JsonResult.notFound ∨
      cfg.loadJson f = JsonResult.badJson) :
    ∀ (files : List String) (acc : List (String × List String) × Nat),
      (∀ ks, ((f, ks) : String × List String) ∉ acc.1) →
      ∀ ks, ((f, ks) : String × List String) ∉
        (files.foldl (part1Step cfg enKeys) acc).1 := by
  intro files
  induction files with
  | nil => intro acc h; exact h
  | cons file files ih =>
    intro acc h
    rw [List.foldl_cons]
    apply ih
    by_cases h1 : file = cfg.enFile
    · rw [part1Step_en cfg enKeys acc file h1]; exact h
    · cases hl : cfg.loadJson file with
      | notFound => rw [part1Step_notFound cfg enKeys acc file h1 hl]; exact h
      | badJson => rw [part1Step_badJson cfg enKeys acc file h1 hl]; exact h
      | ok keyList =>
        have hfne : file ≠ f := by
          intro he
          subst he
          rcases hload with hh | hh <;> rw [hh] at hl <;> exact JsonResult.noConfusion hl
        by_cases h2 : (diffMissing enKeys keyList.dedup).isEmpty
        · rw [part1Step_ok_empty cfg enKeys acc file keyList h1 hl h2]; exact h
        · rw [part1Step_ok_nonempty cfg enKeys acc file keyList h1 hl h2]
          exact dictSet_no_new_key acc.1 file (diffMissing enKeys keyList.dedup) f
            hfne h

theorem not_any_of_not_mem_keysOf (m : List (String × List String)) (k : String)
    (h : k ∉ keysOf m) : ¬ (m.any (fun p => p.1 == k) = true) := by
  intro ha
  rw [List.any_eq_true] at ha
  obtain ⟨p, hp, hpe⟩ := ha
  simp at hpe
  apply h
  unfold keysOf
  rw [List.mem_map]
  exact ⟨p, hp, hpe⟩

theorem dictSet_append (m : List (String × List String)) (k : String)
    (v : List String) (ha : ¬ (m.any (fun p => p.1 == k) = true)) :
    dictSet m k v = m ++ [(k, v)] := by
  unfold dictSet
  rw [if_neg ha]

theorem part1_sum (cfg : Config) (enKeys : List String) :
    ∀ (files : List String) (acc : List (String × List String) × Nat),
      (files.filter (fun x => x != cfg.enFile)).Nodup →
      (∀ f ∈ files, f ≠ cfg.enFile → f ∉ keysOf acc.1) →
      (files.foldl (part1Step cfg enKeys) acc).2 + massOf acc.1 =
        acc.2 + massOf (files.foldl (part1Step cfg enKeys) acc).1 := by
  intro files
  induction files with
  | nil => intro acc _ _; rfl
  | cons file files ih =>
    intro acc hnd hseen
    rw [List.foldl_cons]
    by_cases h1 : file = cfg.enFile
    · rw [part1Step_en cfg enKeys acc file h1]
      have hnd' : (files.filter (fun x => x != cfg.enFile)).Nodup := by
        have : (file :: files).filter (fun x => x != cfg.enFile) =
            files.filter (fun x => x != cfg.enFile) := by
          rw [List.filter_cons]
          simp [h1]
        rwa [this] at hnd
      exact ih acc hnd' (fun f hf => hseen f (List.mem_cons_of_mem file hf))
    · have hcons : (file :: files).filter (fun x => x != cfg.enFile) =
          file :: files.filter (fun x => x != cfg.enFile) := by
        rw [List.filter_cons]
        simp [h1]
      rw [hcons, List.nodup_cons] at hnd
      cases hl : cfg.loadJson file with
      | notFound =>
        rw [part1Step_notFound cfg enKeys acc file h1 hl]
        exact ih acc hnd.2 (fun f hf => hseen f (List.mem_cons_of_mem file hf))
      | badJson =>
        rw [part1Step_badJson cfg enKeys acc file h1 hl]
        exact ih acc hnd.2 (fun f hf => hseen f (List.mem_cons_of_mem file hf))
      | ok keyList =>
        by_cases h2 : (diffMissing enKeys keyList.dedup).isEmpty
        · rw [part1Step_ok_empty cfg enKeys acc file keyList h1 hl h2]
          exact ih acc hnd.2 (fun f hf => hseen f (List.mem_cons_of_mem file hf))
        · rw [part1Step_ok_nonempty cfg enKeys acc file keyList h1 hl h2]
          have hnotin : file ∉ keysOf acc.1 :=
            hseen file (List.mem_cons_self file files) h1
          have hds := dictSet_append acc.1 file (diffMissing enKeys keyList.dedup)
            (not_any_of_not_mem_keysOf acc.1 file hnotin)
          rw [hds]
          have hseen' : ∀ f ∈ files, f ≠ cfg.enFile →
              f ∉ keysOf (acc.1 ++ [(file, diffMissing enKeys keyList.dedup)]) := by
            intro f hf hfen hmem
            unfold keysOf at hmem
            rw [List.map_append] at hmem
            rcases List.mem_append.mp hmem with hh | hh
            · exact hseen f (List.mem_cons_of_mem file hf) hfen hh
            · simp at hh
              subst hh
              apply hnd.1
              rw [List.mem_filter]
              refine ⟨hf, ?_⟩
              simp [hfen]
          have ihr := ih (acc.1 ++ [(file, diffMissing enKeys keyList.dedup)],
            acc.2 + (diffMissing enKeys keyList.dedup).length) hnd.2 hseen'
          have hmassapp : massOf (acc.1 ++ [(file, diffMissing enKeys keyList.dedup)]) =
              massOf acc.1 + (diffMissing enKeys keyList.dedup).length := by
            unfold massOf
            rw [List.map_append]
            simp
          simp only at ihr ⊢
          omega

theorem foldl_filter_ne {α : Type} (step : α → String → α) (f : String)
    (h : ∀ acc, step acc f = acc) :
    ∀ (l : List String) (a : α),
      (l.filter (fun x => x != f)).foldl step a = l.foldl step a := by
  intro l
  induction l with
  | nil => intro a; rfl
  | cons x l ih =>
    intro a
    by_cases hx : x = f
    · subst hx
      have : (x :: l).filter (fun y => y != x) = l.filter (fun y => y != x) := by
        rw [List.filter_cons]
        simp
      rw [this, List.foldl_cons, h a]
      exact ih a
    · have : (x :: l).filter (fun y => y != f) = x :: l.filter (fun y => y != f) := by
        rw [List.filter_cons]
        simp [hx]
      rw [this, List.foldl_cons, List.foldl_cons]
      exact ih (step a x)

theorem filterMap_filter_ne {β : Type} (g : String → Option β) (f : String)
    (h : g f = none) :
    ∀ (l : List String),
      (l.filter (fun x => x != f)).filterMap g = l.filterMap g := by
  intro l
  induction l with
  | nil => rfl
  | cons x l ih =>
    by_cases hx : x = f
    · subst hx
      have : (x :: l).filter (fun y => y != x) = l.filter (fun y => y != x) := by
        rw [List.filter_cons]
        simp
      rw [this, List.filterMap_cons, h, ih]
    · have : (x :: l).filter (fun y => y != f) = x :: l.filter (fun y => y != f) := by
        rw [List.filter_cons]
        simp [hx]
      rw [this, List.filterMap_cons, List.filterMap_cons]
      cases g x with
      | none => exact ih
      | some b => rw [ih]

theorem findMissingTranslations_ok (cfg : Config) (enKeyList : List String)
    (h : cfg.loadJson cfg.enFile = JsonResult.ok enKeyList) :
    findMissingTranslations cfg =
      ⟨(missingKeysPart cfg enKeyList.dedup).1,
       (cfg.rootDir.foldl
         (processTemplate (allTranslationsPart cfg enKeyList.dedup))
         ⟨[], [], 0, 0⟩).missingHtml,
       (cfg.rootDir.foldl
         (processTemplate (allTranslationsPart cfg enKeyList.dedup))
         ⟨[], [], 0, 0⟩).missingTransloco,
       (cfg.rootDir.foldl
         (processTemplate (allTranslationsPart cfg enKeyList.dedup))
         ⟨[], [], 0, 0⟩).totalStatic,
       (cfg.rootDir.foldl
         (processTemplate (allTranslationsPart cfg enKeyList.dedup))
         ⟨[], [], 0, 0⟩).totalTransloco,
       (missingKeysPart cfg enKeyList.dedup).2⟩ := by
  unfold findMissingTranslations
  rw [h]

theorem isTranslated_of_en (cfg : Config) (enKeyList : List String) (k : String)
    (hk : k ∈ enKeyList) :
    isTranslated (allTranslationsPart cfg enKeyList.dedup) k = true := by
  unfold isTranslated allTranslationsPart
  rw [List.any_eq_true]
  refine ⟨(cfg.enFile, enKeyList.dedup), List.mem_cons_self _ _, ?_⟩
  simp [List.mem_dedup]
  exact hk

theorem isTranslated_of_other (cfg : Config) (enKeyList : List String)
    (f : String) (ks : List String) (k : String)
    (hf : f ∈ cfg.translationFiles) (hne : f ≠ cfg.enFile)
    (hl : cfg.loadJson f = JsonResult.ok ks) (hk : k ∈ ks) :
    isTranslated (allTranslationsPart cfg enKeyList.dedup) k = true := by
  unfold isTranslated allTranslationsPart
  rw [List.any_eq_true]
  refine ⟨(f, ks.dedup), ?_, ?_⟩
  · apply List.mem_cons_of_mem
    rw [List.mem_filterMap]
    refine ⟨f, hf, ?_⟩
    rw [if_neg hne, hl]
  · simp [List.mem_dedup]
    exact hk

theorem allTranslationsPart_no_failed (cfg : Config) (enKeys : List String)
    (f : String) (hne : f ≠ cfg.enFile)
    (hload : cfg.loadJson f = JsonResult.notFound ∨
      cfg.loadJson f = JsonResult.badJson) :
    ∀ ks, ((f, ks) : String × List String) ∉ allTranslationsPart cfg enKeys := by
  intro ks hmem
  unfold allTranslationsPart at hmem
  rcases List.mem_cons.mp hmem with hh | hh
  · exact hne (by simpa using congrArg Prod.fst hh)
  · rw [List.mem_filterMap] at hh
    obtain ⟨a, ha, hga⟩ := hh
    by_cases hae : a = cfg.enFile
    · rw [if_pos hae] at hga
      exact Option.noConfusion hga
    · rw [if_neg hae] at hga
      cases hla : cfg.loadJson a with
      | ok keyList =>
        rw [hla] at hga
        simp at hga
        have haf : a = f := hga.1
        subst haf
        rcases hload with hh2 | hh2 <;> rw [hh2] at hla <;>
          exact JsonResult.noConfusion hla
      | notFound => rw [hla] at hga; exact Option.noConfusion hga
      | badJson => rw [hla] at hga; exact Option.noConfusion hga

theorem translated_buckets_empty (cfg : Config) (enKeyList : List String) (k : String)
    (h : cfg.loadJson cfg.enFile = JsonResult.ok enKeyList)
    (ht : isTranslated (allTranslationsPart cfg enKeyList.dedup) k = true) :
    lookupBucket (findMissingTranslations cfg).missingTranslationsHtml k = [] ∧
    lookupBucket (findMissingTranslations cfg).missingTranslocoKeys k = [] := by
  rw [findMissingTranslations_ok cfg enKeyList h]
  obtain ⟨h1, h2⟩ := foldTemplates_translated
    (allTranslationsPart cfg enKeyList.dedup) k ht cfg.rootDir ⟨[], [], 0, 0⟩
  exact ⟨h1, h2⟩

theorem findMissingTranslations_fail (cfg : Config)
    (h : cfg.loadJson cfg.enFile = JsonResult.notFound ∨
      cfg.loadJson cfg.enFile = JsonResult.badJson) :
    findMissingTranslations cfg = ⟨[], [], [], 0, 0, 0⟩ := by
  unfold findMissingTranslations
  rcases h with h | h <;> rw [h]

/-- The spec's static-text extraction exactly as the spec words it
    (exclusion only on the two-character brace delimiter or '['), with the
    same trim, non-empty filter and per-file deduplication. -/
def specStaticTokens (content : String) : List String :=
  (((specStaticSpans content.toList).map (fun t => String.mk (strip t))).filter
    (fun t => t != "")).dedup

/-- The amended static-text extraction: as `specStaticTokens` but a span is
    excluded iff it contains any of '>', a single open brace, or '['. -/
def amendedStaticTokens (content : String) : List String :=
  (((amendedStaticSpans content.toList).map (fun t => String.mk (strip t))).filter
    (fun t => t != "")).dedup

/-- Concrete run for the C1 counterexample: the only key anywhere is the
    dotted key of the reference locale, and a template contains exactly
    that text. -/
def cfgC1 : Config where
  rootDir := [⟨"root", "page.html", some "<p>nav.title</p>"⟩]
  translationFiles := ["en.json"]
  enFile := "en.json"
  loadJson := fun f =>
    if f == "en.json" then JsonResult.ok ["nav.title"] else JsonResult.notFound

/-- Concrete run for the C1 amended witness. -/
def cfgC1w : Config where
  rootDir := [⟨"root", "page.html", some "<p>nav.title</p>"⟩]
  translationFiles := ["en.json", "de.json"]
  enFile := "en.json"
  loadJson := fun f =>
    if f == "en.json" then JsonResult.ok ["nav.title", "hello"]
    else if f == "de.json" then JsonResult.ok ["hello"]
    else JsonResult.notFound

/-- Concrete run for the C4 witness: the reference locale file is absent
    while every other input is non-trivial. -/
def cfgC4 : Config where
  rootDir := [⟨"root", "page.html", some "<p>Hello</p>"⟩]
  translationFiles := ["en.json", "de.json"]
  enFile := "en.json"
  loadJson := fun f =>
    if f == "de.json" then JsonResult.ok ["hello"] else JsonResult.notFound

/-- Concrete run for the C5 witness: the token equals a reference-locale
    key. -/
def cfgC5 : Config where
  rootDir := [⟨"root", "page.html", some "<p>greeting</p>"⟩]
  translationFiles := ["en.json", "de.json"]
  enFile := "en.json"
  loadJson := fun f =>
    if f == "en.json" then JsonResult.ok ["greeting"]
    else if f == "de.json" then JsonResult.ok ["hallo"]
    else JsonResult.notFound

/-- Concrete run for the C6 witness: a dotted transloco key undefined in
    every locale. -/
def cfgC6 : Config where
  rootDir := [⟨"root", "page.html",
    some "<span>\x7b\x7b \x27nav.title\x27 | transloco \x7d\x7d</span>"⟩]
  translationFiles := ["en.json"]
  enFile := "en.json"
  loadJson := fun f =>
    if f == "en.json" then JsonResult.ok ["greeting"] else JsonResult.notFound

/-- Concrete run for the C7 witness: one untranslated static token occurs
    in two distinct template files. -/
def cfgC7 : Config where
  rootDir := [⟨"root", "a.html", some "<p>Welcome</p>"⟩,
    ⟨"root", "b.html", some "<div>Welcome</div>"⟩]
  translationFiles := ["en.json"]
  enFile := "en.json"
  loadJson := fun f =>
    if f == "en.json" then JsonResult.ok ["greeting"] else JsonResult.notFound

/-- Concrete run for the C8 witness: one non-reference locale file is
    missing. -/
def cfgC8 : Config where
  rootDir := [⟨"root", "page.html", some "<p>Hello</p>"⟩]
  translationFiles := ["en.json", "de.json", "fr.json"]
  enFile := "en.json"
  loadJson := fun f =>
    if f == "en.json" then JsonResult.ok ["greeting"]
    else if f == "fr.json" then JsonResult.ok []
    else JsonResult.notFound

/-- The spec's worked example (section 8): one template with a static text
    and a transloco lookup, the reference locale defining only the lookup
    key. -/
def cfgC9 : Config where
  rootDir := [⟨"root", "page.html",
    some "<div>Welcome</div>\x7b\x7b \x27greeting\x27 | transloco \x7d\x7d"⟩]
  translationFiles := ["en.json"]
  enFile := "en.json"
  loadJson := fun f =>
    if f == "en.json" then JsonResult.ok ["greeting"] else JsonResult.notFound

/-- Concrete run for the C10 counterexample: the same non-reference locale
    path listed twice. -/
def cfgC10 : Config where
  rootDir := []
  translationFiles := ["en.json", "de.json", "de.json"]
  enFile := "en.json"
  loadJson := fun f =>
    if f == "en.json" then JsonResult.ok ["greeting"]
    else if f == "de.json" then JsonResult.ok [] else JsonResult.notFound

/-- Concrete run for the C10 amended witness: no duplicate paths. -/
def cfgC10w : Config where
  rootDir := []
  translationFiles := ["en.json", "de.json", "es.json"]
  enFile := "en.json"
  loadJson := fun f =>
    if f == "en.json" then JsonResult.ok ["greeting", "bye"]
    else if f == "de.json" then JsonResult.ok ["bye"]
    else if f == "es.json" then JsonResult.ok [] else JsonResult.notFound

/-- Concrete run for the C3 witness. -/
def refKeysC3 : List String := ["hello", "nav.title"]

def candKeysC3 : List String := ["hola"]

/-- C2 counterexample: on the content ">a{b<" (brace written escaped) the
    span between '>' and the next '<' contains a single open brace but
    neither the two-character open-brace delimiter nor '[': the spec as
    stated keeps it, while the code's extraction drops it, because the
    regex character class excludes every single brace. -/
theorem claim_C2_counterexample :
    staticTokens ">a\x7bb<" = [] ∧ specStaticTokens ">a\x7bb<" = ["a\x7bb"] := by
  constructor <;> rfl

/-- C2 (amended): for every template content, static text extraction yields
    exactly the whitespace-trimmed, non-empty, per-file-deduplicated spans
    lying strictly between a '>' and the next '<', where a matched span is
    excluded if and only if it contains '>', a single open brace, or '['. -/
theorem claim_C2_amended (content : String) :
    staticTokens content = amendedStaticTokens content := by
  unfold staticTokens amendedStaticTokens
  rw [scanStatic_eq_amendedStaticSpans]

/-- C3: for every pair of reference and candidate key sets, the per-locale
    diff equals the dot-free reference keys minus the dot-free candidate
    keys (as sets), and it never contains a dotted key; `diffMissing` is a
    pure function of its two arguments, so determinism is inherent. -/
theorem claim_C3 (ref cand : List String) :
    (diffMissing ref cand).toFinset =
      (ref.filter (fun k => hasDot k = false)).toFinset \
        (cand.filter (fun k => hasDot k = false)).toFinset ∧
    ∀ k ∈ diffMissing ref cand, hasDot k = false := by
  refine ⟨?_, diffMissing_hasDot ref cand⟩
  ext k
  simp only [diffMissing, List.mem_toFinset, Finset.mem_sdiff, List.mem_filter]
  simp
  tauto

/-- C3 witness: instantiation on the spec's own example (reference has one
    flat and one dotted key). -/
theorem claim_C3_witness :
    (diffMissing refKeysC3 candKeysC3).toFinset =
      (refKeysC3.filter (fun k => hasDot k = false)).toFinset \
        (candKeysC3.filter (fun k => hasDot k = false)).toFinset ∧
    "hello" ∈ diffMissing refKeysC3 candKeysC3 ∧
    hasDot "hello" = false := by
  refine ⟨(claim_C3 refKeysC3 candKeysC3).1, by decide,
    (claim_C3 refKeysC3 candKeysC3).2 "hello" (by decide)⟩

/-- C4: if the reference locale file is missing or malformed, the run
    returns a report whose three collections are empty and whose three
    totals are zero, for every other input. -/
theorem claim_C4 (cfg : Config)
    (h : cfg.loadJson cfg.enFile = JsonResult.notFound ∨
      cfg.loadJson cfg.enFile = JsonResult.badJson) :
    findMissingTranslations cfg = ⟨[], [], [], 0, 0, 0⟩ :=
  findMissingTranslations_fail cfg h

/-- C4 witness: a concrete run whose reference locale file is absent while
    a template and another locale are present. -/
theorem claim_C4_witness :
    (cfgC4.loadJson cfgC4.enFile = JsonResult.notFound ∨
      cfgC4.loadJson cfgC4.enFile = JsonResult.badJson) ∧
    findMissingTranslations cfgC4 = ⟨[], [], [], 0, 0, 0⟩ :=
  ⟨Or.inl (by decide), claim_C4 cfgC4 (Or.inl (by decide))⟩

/-- C9: on the spec's worked example (template `<div>Welcome</div>` followed
    by a transloco lookup of "greeting", reference locale defining only
    "greeting"), the run reports the static-missing mapping
    `Welcome -> [that file]` and an empty lookup-missing mapping. -/
theorem claim_C9 :
    (findMissingTranslations cfgC9).missingTranslationsHtml =
      [("Welcome", ["root/page.html"])] ∧
    (findMissingTranslations cfgC9).missingTranslocoKeys = [] := by
  constructor <;> rfl

/-- C5: a token exactly equal to a key of any successfully loaded locale
    (the reference included) is never reported missing, in either bucket. -/
theorem claim_C5 (cfg : Config) (enKeyList : List String) (k : String)
    (h : cfg.loadJson cfg.enFile = JsonResult.ok enKeyList)
    (hk : k ∈ enKeyList ∨ ∃ f ks, f ∈ cfg.translationFiles ∧ f ≠ cfg.enFile ∧
      cfg.loadJson f = JsonResult.ok ks ∧ k ∈ ks) :
    lookupBucket (findMissingTranslations cfg).missingTranslationsHtml k = [] ∧
    lookupBucket (findMissingTranslations cfg).missingTranslocoKeys k = [] := by
  apply translated_buckets_empty cfg enKeyList k h
  rcases hk with hk | ⟨f, ks, hf, hne, hl, hkk⟩
  · exact isTranslated_of_en cfg enKeyList k hk
  · exact isTranslated_of_other cfg enKeyList f ks k hf hne hl hkk

/-- C5 witness: the template text "greeting" equals a reference-locale key
    and is reported in neither bucket. -/
theorem claim_C5_witness :
    cfgC5.loadJson cfgC5.enFile = JsonResult.ok ["greeting"] ∧
    "greeting" ∈ ["greeting"] ∧
    lookupBucket (findMissingTranslations cfgC5).missingTranslationsHtml
      "greeting" = [] ∧
    lookupBucket (findMissingTranslations cfgC5).missingTranslocoKeys
      "greeting" = [] := by
  refine ⟨by decide, by decide, ?_, ?_⟩
  · exact (claim_C5 cfgC5 ["greeting"] "greeting" (by decide)
      (Or.inl (by decide))).1
  · exact (claim_C5 cfgC5 ["greeting"] "greeting" (by decide)
      (Or.inl (by decide))).2

/-- C6: a lookup-expression token containing '.' is skipped before the
    membership test (the per-file classification leaves its bucket
    untouched) and is never reported missing in any run. -/
theorem claim_C6 (cfg : Config) (k : String) (hd : hasDot k = true) :
    lookupBucket (findMissingTranslations cfg).missingTranslocoKeys k = [] ∧
    ∀ (allT : List (String × List String)) (fp : String) (toks : List String)
      (acc : List (String × List String) × Nat),
      lookupBucket (checkTranslocoTokens allT fp toks acc).1 k =
        lookupBucket acc.1 k := by
  constructor
  · cases hl : cfg.loadJson cfg.enFile with
    | notFound =>
      rw [findMissingTranslations_fail cfg (Or.inl hl)]
      rfl
    | badJson =>
      rw [findMissingTranslations_fail cfg (Or.inr hl)]
      rfl
    | ok enKeyList =>
      rw [findMissingTranslations_ok cfg enKeyList hl]
      exact foldTemplates_transloco_dotted
        (allTranslationsPart cfg enKeyList.dedup) k hd cfg.rootDir ⟨[], [], 0, 0⟩
  · intro allT fp toks acc
    exact checkTranslocoTokens_bucket_preserve allT fp k toks acc (Or.inl hd)

/-- C6 witness: the dotted lookup key "nav.title" is undefined in every
    locale yet never reported missing. -/
theorem claim_C6_witness :
    hasDot "nav.title" = true ∧
    "nav.title" ∈ translocoTokens
      "<span>\x7b\x7b \x27nav.title\x27 | transloco \x7d\x7d</span>" ∧
    lookupBucket (findMissingTranslations cfgC6).missingTranslocoKeys
      "nav.title" = [] := by
  refine ⟨by decide, by decide, ?_⟩
  exact (claim_C6 cfgC6 "nav.title" (by decide)).1

/-- C7: for an untranslated token, the static bucket lists exactly one
    origin file per eligible template file whose (per-file deduplicated)
    static token set contains the token, in walk order; likewise for the
    lookup bucket when the token is dot-free; and each global counter
    equals the total number of entries stored in its buckets. -/
theorem claim_C7 (cfg : Config) (enKeyList : List String) (t : String)
    (h : cfg.loadJson cfg.enFile = JsonResult.ok enKeyList)
    (ht : isTranslated (allTranslationsPart cfg enKeyList.dedup) t = false) :
    lookupBucket (findMissingTranslations cfg).missingTranslationsHtml t =
      staticOccurrences cfg.rootDir t ∧
    (hasDot t = false →
      lookupBucket (findMissingTranslations cfg).missingTranslocoKeys t =
        translocoOccurrences cfg.rootDir t) ∧
    (findMissingTranslations cfg).totalMissingStatic =
      massOf (findMissingTranslations cfg).missingTranslationsHtml ∧
    (findMissingTranslations cfg).totalMissingTransloco =
      massOf (findMissingTranslations cfg).missingTranslocoKeys := by
  rw [findMissingTranslations_ok cfg enKeyList h]
  refine ⟨?_, ?_, ?_, ?_⟩
  · have hb := foldTemplates_static_bucket
      (allTranslationsPart cfg enKeyList.dedup) t ht cfg.rootDir ⟨[], [], 0, 0⟩
    simpa using hb
  · intro hd
    have hb := foldTemplates_transloco_bucket
      (allTranslationsPart cfg enKeyList.dedup) t ht hd cfg.rootDir ⟨[], [], 0, 0⟩
    simpa using hb
  · obtain ⟨-, -, h3, -⟩ := foldTemplates_mass
      (allTranslationsPart cfg enKeyList.dedup) cfg.rootDir ⟨[], [], 0, 0⟩
      (by simp [keysOf]) (by simp [keysOf])
    simpa [massOf] using h3
  · obtain ⟨-, -, -, h4⟩ := foldTemplates_mass
      (allTranslationsPart cfg enKeyList.dedup) cfg.rootDir ⟨[], [], 0, 0⟩
      (by simp [keysOf]) (by simp [keysOf])
    simpa [massOf] using h4

/-- C7 witness: the untranslated token "Welcome" occurs in two template
    files and its bucket holds exactly those two origin files; the counters
    match the bucket masses. -/
theorem claim_C7_witness :
    cfgC7.loadJson cfgC7.enFile = JsonResult.ok ["greeting"] ∧
    isTranslated (allTranslationsPart cfgC7 (List.dedup ["greeting"]))
      "Welcome" = false ∧
    (lookupBucket (findMissingTranslations cfgC7).missingTranslationsHtml
        "Welcome" = staticOccurrences cfgC7.rootDir "Welcome" ∧
      (hasDot "Welcome" = false →
        lookupBucket (findMissingTranslations cfgC7).missingTranslocoKeys
          "Welcome" = translocoOccurrences cfgC7.rootDir "Welcome") ∧
      (findMissingTranslations cfgC7).totalMissingStatic =
        massOf (findMissingTranslations cfgC7).missingTranslationsHtml ∧
      (findMissingTranslations cfgC7).totalMissingTransloco =
        massOf (findMissingTranslations cfgC7).missingTranslocoKeys) := by
  refine ⟨by decide, by decide, ?_⟩
  exact claim_C7 cfgC7 ["greeting"] "Welcome" (by decide) (by decide)

/-- C1 counterexample: in the concrete run `cfgC1` the extracted static
    token "nav.title" equals only the dotted key of the reference locale
    (the sole loaded locale, whose sole key is dotted), yet the code counts
    it as translated: the static missing-token dictionary is empty and the
    counter is zero, where the claim demands the token be reported missing.
    The classification key sets therefore do not exclude dotted keys. -/
theorem claim_C1_counterexample :
    cfgC1.loadJson cfgC1.enFile = JsonResult.ok ["nav.title"] ∧
    hasDot "nav.title" = true ∧
    "nav.title" ∈ staticTokens "<p>nav.title</p>" ∧
    (findMissingTranslations cfgC1).missingTranslationsHtml = [] ∧
    (findMissingTranslations cfgC1).totalMissingStatic = 0 := by
  refine ⟨by decide, by decide, by decide, rfl, rfl⟩

/-- C1 (amended): the key sets used in diffing do exclude dotted keys
    (every key in every per-locale diff list is dot-free), but the
    classification uses the unfiltered key sets: a token equal to any key
    of a successfully loaded locale, dotted or not, is counted translated
    and never reported missing. -/
theorem claim_C1_amended (cfg : Config) (enKeyList : List String) (k : String)
    (h : cfg.loadJson cfg.enFile = JsonResult.ok enKeyList) :
    (∀ p ∈ (findMissingTranslations cfg).missingKeysEn, ∀ s ∈ p.2,
      hasDot s = false) ∧
    (hasDot k = true →
      (k ∈ enKeyList ∨ ∃ f ks, f ∈ cfg.translationFiles ∧ f ≠ cfg.enFile ∧
        cfg.loadJson f = JsonResult.ok ks ∧ k ∈ ks) →
      lookupBucket (findMissingTranslations cfg).missingTranslationsHtml k = [] ∧
      lookupBucket (findMissingTranslations cfg).missingTranslocoKeys k = []) := by
  constructor
  · rw [findMissingTranslations_ok cfg enKeyList h]
    exact part1_no_dots cfg enKeyList.dedup cfg.translationFiles ([], 0)
      (by intro p hp; simp at hp)
  · intro _ hk
    apply translated_buckets_empty cfg enKeyList k h
    rcases hk with hk | ⟨f, ks, hf, hne, hl, hkk⟩
    · exact isTranslated_of_en cfg enKeyList k hk
    · exact isTranslated_of_other cfg enKeyList f ks k hf hne hl hkk

/-- C1 amended witness: a run whose reference locale holds a dotted key;
    the diff lists stay dot-free and the dotted token is not reported. -/
theorem claim_C1_witness :
    cfgC1w.loadJson cfgC1w.enFile = JsonResult.ok ["nav.title", "hello"] ∧
    hasDot "nav.title" = true ∧
    "nav.title" ∈ ["nav.title", "hello"] ∧
    (∀ p ∈ (findMissingTranslations cfgC1w).missingKeysEn, ∀ s ∈ p.2,
      hasDot s = false) ∧
    lookupBucket (findMissingTranslations cfgC1w).missingTranslationsHtml
      "nav.title" = [] ∧
    lookupBucket (findMissingTranslations cfgC1w).missingTranslocoKeys
      "nav.title" = [] := by
  have hmain := claim_C1_amended cfgC1w ["nav.title", "hello"] "nav.title"
    (by decide)
  refine ⟨by decide, by decide, by decide, hmain.1, ?_, ?_⟩
  · exact (hmain.2 (by decide) (Or.inl (by decide))).1
  · exact (hmain.2 (by decide) (Or.inl (by decide))).2

/-- C8: a failed non-reference locale load does not abort the run: the
    whole report is the one computed with that path removed from the list,
    the per-locale diff dictionary has no entry for that path, and the
    classification union holds no key set for it. -/
theorem claim_C8 (cfg : Config) (f : String) (hne : f ≠ cfg.enFile)
    (hload : cfg.loadJson f = JsonResult.notFound ∨
      cfg.loadJson f = JsonResult.badJson) :
    findMissingTranslations cfg =
      findMissingTranslations
        { cfg with translationFiles :=
            cfg.translationFiles.filter (fun x => x != f) } ∧
    (∀ lst, ((f, lst) : String × List String) ∉
      (findMissingTranslations cfg).missingKeysEn) ∧
    (∀ (enKeys ks : List String), ((f, ks) : String × List String) ∉
      allTranslationsPart cfg enKeys) := by
  have hstep_noop : ∀ (enKeys : List String)
      (acc : List (String × List String) × Nat),
      part1Step cfg enKeys acc f = acc := by
    intro enKeys acc
    rcases hload with hh | hh
    · exact part1Step_notFound cfg enKeys acc f hne hh
    · exact part1Step_badJson cfg enKeys acc f hne hh
  refine ⟨?_, ?_, ?_⟩
  · cases hl : cfg.loadJson cfg.enFile with
    | notFound =>
      rw [findMissingTranslations_fail cfg (Or.inl hl),
        findMissingTranslations_fail
          { cfg with translationFiles :=
              cfg.translationFiles.filter (fun x => x != f) } (Or.inl hl)]
    | badJson =>
      rw [findMissingTranslations_fail cfg (Or.inr hl),
        findMissingTranslations_fail
          { cfg with translationFiles :=
              cfg.translationFiles.filter (fun x => x != f) } (Or.inr hl)]
    | ok enKeyList =>
      rw [findMissingTranslations_ok cfg enKeyList hl,
        findMissingTranslations_ok
          { cfg with translationFiles :=
              cfg.translationFiles.filter (fun x => x != f) } enKeyList hl]
      have h1 : missingKeysPart
          { cfg with translationFiles :=
              cfg.translationFiles.filter (fun x => x != f) } enKeyList.dedup =
          missingKeysPart cfg enKeyList.dedup := by
        show (cfg.translationFiles.filter (fun x => x != f)).foldl
          (part1Step cfg enKeyList.dedup) ([], 0) =
          cfg.translationFiles.foldl (part1Step cfg enKeyList.dedup) ([], 0)
        exact foldl_filter_ne (part1Step cfg enKeyList.dedup) f
          (hstep_noop enKeyList.dedup) cfg.translationFiles ([], 0)
      have h2 : allTranslationsPart
          { cfg with translationFiles :=
              cfg.translationFiles.filter (fun x => x != f) } enKeyList.dedup =
          allTranslationsPart cfg enKeyList.dedup := by
        show (cfg.enFile, enKeyList.dedup) ::
            (cfg.translationFiles.filter (fun x => x != f)).filterMap
              (fun file =>
                if file = cfg.enFile then none
                else
                  match cfg.loadJson file with
                  | JsonResult.ok keyList => some (file, keyList.dedup)
                  | JsonResult.notFound => none
                  | JsonResult.badJson => none) =
          (cfg.enFile, enKeyList.dedup) ::
            cfg.translationFiles.filterMap
              (fun file =>
                if file = cfg.enFile then none
                else
                  match cfg.loadJson file with
                  | JsonResult.ok keyList => some (file, keyList.dedup)
                  | JsonResult.notFound => none
                  | JsonResult.badJson => none)
        congr 1
        apply filterMap_filter_ne
        rw [if_neg hne]
        rcases hload with hh | hh <;> rw [hh]
      rw [h1, h2]
  · intro lst
    cases hl : cfg.loadJson cfg.enFile with
    | notFound =>
      rw [findMissingTranslations_fail cfg (Or.inl hl)]
      simp
    | badJson =>
      rw [findMissingTranslations_fail cfg (Or.inr hl)]
      simp
    | ok enKeyList =>
      rw [findMissingTranslations_ok cfg enKeyList hl]
      exact part1_no_failed_entry cfg enKeyList.dedup f hne hload
        cfg.translationFiles ([], 0) (by intro ks hk; simp at hk) lst
  · intro enKeys
    exact allTranslationsPart_no_failed cfg enKeys f hne hload

/-- C8 witness: the run with the missing "de.json" equals the run without
    it, there is no diff entry for it, and no key set for it. -/
theorem claim_C8_witness :
    ("de.json" ≠ cfgC8.enFile) ∧
    cfgC8.loadJson "de.json" = JsonResult.notFound ∧
    (findMissingTranslations cfgC8 =
      findMissingTranslations
        { cfgC8 with translationFiles :=
            cfgC8.translationFiles.filter (fun x => x != "de.json") } ∧
    (∀ lst, (("de.json", lst) : String × List String) ∉
      (findMissingTranslations cfgC8).missingKeysEn) ∧
    (∀ (enKeys ks : List String), (("de.json", ks) : String × List String) ∉
      allTranslationsPart cfgC8 enKeys)) := by
  refine ⟨by decide, by decide, ?_⟩
  exact claim_C8 cfgC8 "de.json" (by decide) (Or.inl (by decide))

/-- C10 counterexample: with the non-reference path "de.json" listed twice,
    the dictionary assignment overwrites the single entry but the counter
    is incremented on both iterations: the total is 2 while the per-locale
    lists sum to 1. -/
theorem claim_C10_counterexample :
    (findMissingTranslations cfgC10).totalMissingKeysEn = 2 ∧
    (((findMissingTranslations cfgC10).missingKeysEn).map
      (fun p => p.2.length)).sum = 1 := by
  constructor <;> rfl

/-- C10 (amended): every per-locale list present in the missing-keys
    mapping is non-empty, and, provided the translation-file list holds no
    duplicate non-reference path, the reference-diff total equals the sum
    of the lengths of the per-locale missing-key lists. -/
theorem claim_C10_amended (cfg : Config) :
    (∀ p ∈ (findMissingTranslations cfg).missingKeysEn, p.2 ≠ []) ∧
    ((cfg.translationFiles.filter (fun x => x != cfg.enFile)).Nodup →
      (findMissingTranslations cfg).totalMissingKeysEn =
        (((findMissingTranslations cfg).missingKeysEn).map
          (fun p => p.2.length)).sum) := by
  cases hl : cfg.loadJson cfg.enFile with
  | notFound =>
    rw [findMissingTranslations_fail cfg (Or.inl hl)]
    exact ⟨by intro p hp; simp at hp, by intro _; rfl⟩
  | badJson =>
    rw [findMissingTranslations_fail cfg (Or.inr hl)]
    exact ⟨by intro p hp; simp at hp, by intro _; rfl⟩
  | ok enKeyList =>
    rw [findMissingTranslations_ok cfg enKeyList hl]
    constructor
    · exact part1_nonempty cfg enKeyList.dedup cfg.translationFiles ([], 0)
        (by intro p hp; simp at hp)
    · intro hnd
      have hsum := part1_sum cfg enKeyList.dedup cfg.translationFiles ([], 0)
        hnd (by intro f hf hfen hmem; simp [keysOf] at hmem)
      show (missingKeysPart cfg enKeyList.dedup).2 =
        (((missingKeysPart cfg enKeyList.dedup).1).map
          (fun p => p.2.length)).sum
      rw [missingKeysPart_eq_foldl]
      simpa [massOf] using hsum

/-- C10 amended witness: a duplicate-free run where the total equals the
    sum of the per-locale list lengths. -/
theorem claim_C10_witness :
    (cfgC10w.translationFiles.filter (fun x => x != cfgC10w.enFile)).Nodup ∧
    (∀ p ∈ (findMissingTranslations cfgC10w).missingKeysEn, p.2 ≠ []) ∧
    (findMissingTranslations cfgC10w).totalMissingKeysEn =
      (((findMissingTranslations cfgC10w).missingKeysEn).map
        (fun p => p.2.length)).sum := by
  have hmain := claim_C10_amended cfgC10w
  exact ⟨by decide, hmain.1, hmain.2 (by decide)⟩
